import Mathlib

/-!
# Verification of the SOTA Internal Link Engine

A shallow embedding, in Lean 4, of `src/lib/sota/SOTAInternalLinkEngine.ts`
(first implementation in the file, the one the specification describes):
paragraph extraction, token/stem normalisation, anchor-candidate generation,
greedy constrained selection, and link injection, followed by theorems about
the embedded definitions.

Modelling conventions:
* JS strings are modelled as `List Char`; all scanning is positional, as in
  the source's regex loops.  Each regex of the source is unfolded to its
  deterministic matching procedure (documented at the definition).
* JS `number` scores are modelled as exact rational numbers carried in
  unnormalised fraction form (`Score`), with comparisons by
  cross-multiplication.  Every score the engine builds has a positive
  denominator, so the comparisons implement the rational order exactly.
* The whitespace class `\s` is modelled over the ASCII whitespace characters
  plus NBSP, which covers every input considered here.
-/

namespace SOTA

/-- Lower-casing of a character, as JS `toLowerCase` acts on ASCII. -/
def lc (c : Char) : Char := c.toLower

/-- JS `\s` (whitespace class), restricted to ASCII whitespace plus NBSP. -/
def isWsChar (c : Char) : Bool :=
  c = ' ' || c = '\t' || c = '\n' || c = '\r' || c = '\x0b' || c = '\x0c' || c = ' '

/-- Is `c` a lowercase letter `a`–`z`? -/
def isLowerAlpha (c : Char) : Bool := 'a' ≤ c && c ≤ 'z'

/-- Is `c` a digit `0`–`9`? -/
def isDigit (c : Char) : Bool := '0' ≤ c && c ≤ '9'

/-- JS `\w` (word character): letters, digits, underscore. -/
def isWordChar (c : Char) : Bool :=
  ('a' ≤ c && c ≤ 'z') || ('A' ≤ c && c ≤ 'Z') || ('0' ≤ c && c ≤ '9') || c = '_'

/-- Lower-case a whole string. -/
def lcList (l : List Char) : List Char := l.map lc

/-- `l.substring a b` of JS, on lists: the characters at positions `[a, b)`. -/
def listExtract (l : List Char) (a b : Nat) : List Char := (l.drop a).take (b - a)

/-- First position `t` with `start ≤ t < start + fuel` where `p t` holds
(the generic leftmost-scan used to model regex searches). -/
def scanFirst (p : Nat → Bool) : Nat → Nat → Option Nat
  | _, 0 => none
  | start, fuel + 1 => if p start then some start else scanFirst p (start + 1) fuel

theorem scanFirst_some {p : Nat → Bool} {start fuel t : Nat}
    (h : scanFirst p start fuel = some t) :
    p t = true ∧ start ≤ t ∧ t < start + fuel ∧ ∀ u, start ≤ u → u < t → p u = false := by
  induction fuel generalizing start with
  | zero => simp [scanFirst] at h
  | succ n ih =>
    rw [scanFirst] at h
    by_cases hp : p start = true
    · rw [if_pos hp] at h
      cases h
      exact ⟨hp, Nat.le_refl _, by omega, fun u hu1 hu2 => absurd hu1 (by omega)⟩
    · rw [if_neg hp] at h
      obtain ⟨h1, h2, h3, h4⟩ := ih h
      refine ⟨h1, by omega, by omega, fun u hu1 hu2 => ?_⟩
      rcases Nat.eq_or_lt_of_le hu1 with heq | hlt
      · subst heq; exact Bool.eq_false_iff.mpr hp
      · exact h4 u hlt hu2

theorem scanFirst_none {p : Nat → Bool} {start fuel : Nat}
    (h : scanFirst p start fuel = none) :
    ∀ u, start ≤ u → u < start + fuel → p u = false := by
  induction fuel generalizing start with
  | zero => intro u h1 h2; omega
  | succ n ih =>
    rw [scanFirst] at h
    by_cases hp : p start = true
    · rw [if_pos hp] at h; cases h
    · rw [if_neg hp] at h
      intro u hu1 hu2
      rcases Nat.eq_or_lt_of_le hu1 with heq | hlt
      · subst heq; exact Bool.eq_false_iff.mpr hp
      · exact ih h u hlt (by omega)

/-- JS `hay.indexOf(pat)` on lists: position of the first occurrence. -/
def listIndexOf (hay pat : List Char) : Option Nat :=
  if pat.isPrefixOf hay then some 0
  else
    match hay with
    | [] => none
    | _ :: t => (listIndexOf t pat).map (· + 1)

theorem listIndexOf_some {hay pat : List Char} {pos : Nat}
    (h : listIndexOf hay pat = some pos) :
    listExtract hay pos (pos + pat.length) = pat := by
  induction hay generalizing pos with
  | nil =>
    rw [listIndexOf] at h
    by_cases hp : pat.isPrefixOf ([] : List Char)
    · rw [if_pos hp] at h; cases h
      simp [listExtract, List.eq_nil_of_prefix_nil ((List.isPrefixOf_iff_prefix).mp hp)]
    · rw [if_neg hp] at h; cases h
  | cons a t ih =>
    rw [listIndexOf] at h
    by_cases hp : pat.isPrefixOf (a :: t)
    · rw [if_pos hp] at h; cases h
      obtain ⟨rest, hrest⟩ := (List.isPrefixOf_iff_prefix).mp hp
      simp [listExtract, ← hrest, List.take_left']
    · rw [if_neg hp] at h
      cases hpos : listIndexOf t pat with
      | none => rw [hpos] at h; cases h
      | some q =>
        rw [hpos] at h
        simp only [Option.map_some'] at h
        cases h
        simpa [listExtract] using ih hpos

/-- JS `hay.includes(pat)` / a successful `indexOf` test. -/
def containsSub (hay pat : List Char) : Bool := (listIndexOf hay pat).isSome

/--
Scores:  exact rational arithmetic in unnormalised fraction form, modelling
the JS floating-point score computations of the engine.  All scores the
engine constructs have positive denominators.
-/
structure Score where
  num : Int
  den : Int
deriving DecidableEq, Repr

/-- Embed an integer as a score. -/
def Score.ofInt (n : Int) : Score := ⟨n, 1⟩

/-- Exact addition of fractions (no normalisation). -/
def Score.add (a b : Score) : Score := ⟨a.num * b.den + b.num * a.den, a.den * b.den⟩

/-- Multiplication by an integer. -/
def Score.mulInt (a : Score) (k : Int) : Score := ⟨a.num * k, a.den⟩

/-- Division by a (positive) natural number. -/
def Score.divNat (a : Score) (n : Nat) : Score := ⟨a.num, a.den * n⟩

/-- `a < b` for fractions with positive denominators. -/
def Score.blt (a b : Score) : Bool := a.num * b.den < b.num * a.den

/-- `a ≤ b` for fractions with positive denominators. -/
def Score.ble (a b : Score) : Bool := a.num * b.den ≤ b.num * a.den

/-- JS `Math.min(100, s)`. -/
def Score.min100 (s : Score) : Score :=
  if Score.blt (Score.ofInt 100) s then Score.ofInt 100 else s

theorem length_dropWhile_le' {α} (p : α → Bool) (l : List α) :
    (l.dropWhile p).length ≤ l.length := by
  induction l with
  | nil => simp
  | cons a t ih =>
    by_cases h : p a
    · rw [List.dropWhile_cons_of_pos h]; simp; omega
    · rw [List.dropWhile_cons_of_neg (by simpa using h)]

theorem length_tail_le' {α} (l : List α) : l.tail.length ≤ l.length := by
  cases l <;> simp

/-- JS `s.trim()`: strip leading and trailing whitespace. -/
def trimWs (l : List Char) : List Char :=
  ((l.dropWhile isWsChar).reverse.dropWhile isWsChar).reverse

/-- Fuel-based body of `wordRuns`; every step consumes at least one
character, so fuel `= length` always suffices (structural recursion keeps
the definition kernel-reducible). -/
def wordRunsAux : Nat → List Char → List (List Char)
  | 0, _ => []
  | _, [] => []
  | fuel + 1, c :: rest =>
    if isWsChar c then wordRunsAux fuel rest
    else
      (c :: rest.takeWhile (fun d => !isWsChar d)) ::
        wordRunsAux fuel (rest.dropWhile (fun d => !isWsChar d))

/-- The maximal whitespace-free runs of a string, in order.  These are the
non-empty tokens of JS `s.split(/\s+/)`. -/
def wordRuns (l : List Char) : List (List Char) := wordRunsAux l.length l

/-- JS `s.split(/\s+/)` exactly: the whitespace-free runs, plus an empty
leading (resp. trailing) token when the string starts (resp. ends) with
whitespace, and `[""]` for the empty string. -/
def jsSplitWs (l : List Char) : List (List Char) :=
  match l with
  | [] => [[]]
  | c :: t =>
    (if isWsChar c then [([] : List Char)] else []) ++ wordRuns (c :: t) ++
      (if isWsChar ((c :: t).getLast (by simp)) then [([] : List Char)] else [])

/-- Join a list of words with single spaces (JS `arr.join(' ')`). -/
def joinSp : List (List Char) → List Char
  | [] => []
  | [w] => w
  | w :: ws => w ++ ' ' :: joinSp ws

/-- The engine's stop-word set (`STOP`), verbatim from the source. -/
def STOP : List (List Char) :=
  ["a","an","the","and","or","but","in","on","at","to","for","of","with","by",
   "from","as","is","was","are","were","be","have","has","had","do","does","did",
   "will","would","could","should","may","might","can","this","that","these",
   "those","i","me","my","we","our","you","your","he","him","his","she","her",
   "it","its","they","them","their","what","which","who","how","when","where",
   "why","not","no","so","if","than","too","very","just","about","all","also",
   "any","been","being","both","each","few","more","most","other","some","such",
   "into","out","up","down","new","way","much","even","only","own","here","there"
  ].map String.data

/-- Membership in the stop-word set (`STOP.has(w)`). -/
def isStop (w : List Char) : Bool := STOP.contains w

/-- `word.toLowerCase().replace(/[^a-z]/g, '')`: lower-case and keep only
letters — the normalisation applied before the stop-word test and inside
`stem`. -/
def lcAlphaOnly (w : List Char) : List Char := (w.map lc).filter isLowerAlpha

/-- The engine's suffix-stripping stemmer (`stem`), translated branch by
branch from the source. -/
def stem (word : List Char) : List Char :=
  let w := lcAlphaOnly word
  if w.length ≤ 3 then w
  else if ("ing".data.isSuffixOf w) && w.length > 5 then w.take (w.length - 3)
  else if ("tion".data.isSuffixOf w) && w.length > 6 then w.take (w.length - 4)
  else if ("ness".data.isSuffixOf w) && w.length > 6 then w.take (w.length - 4)
  else if ("ment".data.isSuffixOf w) && w.length > 6 then w.take (w.length - 4)
  else if ("able".data.isSuffixOf w) && w.length > 6 then w.take (w.length - 4)
  else if ("ies".data.isSuffixOf w) && w.length > 4 then w.take (w.length - 3) ++ ['y']
  else if ("es".data.isSuffixOf w) && w.length > 4 then w.take (w.length - 2)
  else if ("ed".data.isSuffixOf w) && w.length > 4 then w.take (w.length - 2)
  else if ("s".data.isSuffixOf w) && !("ss".data.isSuffixOf w) && w.length > 3 then
    w.take (w.length - 1)
  else if ("ly".data.isSuffixOf w) && w.length > 4 then w.take (w.length - 2)
  else w

/-- `replace(/[^a-z0-9\s'-]/g, ' ')` on an already lower-cased string:
keep lower-case letters, digits, whitespace, apostrophe and hyphen; replace
everything else by a space. -/
def keepLowerAlnumSp (l : List Char) : List Char :=
  l.map fun c =>
    if isLowerAlpha c || isDigit c || isWsChar c || c = '\'' || c = '-' then c else ' '

/-- `replace(/[^a-z0-9\s'-]/gi, ' ')` (case-insensitive class): additionally
keeps capital letters. -/
def keepAlnumSp (l : List Char) : List Char :=
  l.map fun c =>
    if isLowerAlpha c || ('A' ≤ c && c ≤ 'Z') || isDigit c || isWsChar c ||
        c = '\'' || c = '-' then c else ' '

/-- `significantTokens` of the source: lower-case, replace characters outside
`[a-z0-9\s'-]` by spaces, split on whitespace, keep tokens of length `> 2`
that are not stop-words, and stem them.  Duplicates are preserved (the
source keeps the array; only callers that need a set wrap it in one). -/
def significantTokens (text : List Char) : List (List Char) :=
  ((jsSplitWs (keepLowerAlnumSp (lcList text))).filter
    (fun w => w.length > 2 && !isStop w)).map stem

/-- Fuel-based body of `stripTags`; fuel `= length` always suffices. -/
def stripTagsAux : Nat → List Char → List Char
  | 0, l => l
  | _, [] => []
  | fuel + 1, c :: rest =>
    if c = '<' then
      if rest.contains '>' then
        stripTagsAux fuel ((rest.dropWhile (fun d => d ≠ '>')).tail)
      else c :: rest
    else c :: stripTagsAux fuel rest

/-- `html.replace(/<[^>]*>/g, '')`: delete every maximal `<…>` tag (a `<`
with no later `>` is kept, since the regex then has no match there or
later). -/
def stripTags (l : List Char) : List Char := stripTagsAux l.length l

/-- A crawlable destination page (`SitePage`); the optional fields the
engine never reads (`slug`, `description`, `content`) are omitted. -/
structure SitePage where
  url : List Char
  title : List Char
  keywords : Option (List (List Char))
deriving DecidableEq, Repr

/-- One extracted paragraph (`ParagraphInfo`), with all the fields the
source computes. -/
structure ParagraphInfo where
  html : List Char
  text : List Char
  index : Nat
  wordCount : Nat
  cumulativeWords : Nat
  hasLink : Bool
  startOffset : Nat
  endOffset : Nat
deriving DecidableEq, Repr

/-- A scored `(paragraph, page, anchor)` proposal (`ScoredCandidate`). -/
structure ScoredCandidate where
  paragraph : ParagraphInfo
  page : SitePage
  anchor : List Char
  score : Score
deriving DecidableEq, Repr

/-- The output record (`InternalLink` from `./types`, modelled from the
fields this engine writes and reads; a JS-absent or empty string field is
the empty list, matching the `||`-chains of the injector). -/
structure InternalLink where
  anchor : List Char
  anchorText : List Char
  targetUrl : List Char
  url : List Char
  text : List Char
  context : List Char
  priority : Score
  relevanceScore : Score
deriving DecidableEq, Repr

/-- The `/<a\s/i` test used both by `extractParagraphs` (the `hasLink`
flag) and by the injector's already-linked check: does the string contain
`<`, then `a`/`A`, then a whitespace character? -/
def containsAWs : List Char → Bool
  | [] => false
  | a :: rest =>
    (a = '<' &&
      match rest with
      | c :: d :: _ => lc c = 'a' && isWsChar d
      | _ => false) ||
    containsAWs rest

/-- Does position `s` of `h` start `<p` or `<P` (the head of the paragraph
regex `<p[^>]*>`; note it also fires on `<pre`, `<param>` …, exactly as the
source regex does)? -/
def isPOpenAt (h : List Char) (s : Nat) : Bool :=
  h.get? s = some '<' &&
    match h.get? (s + 1) with
    | some c => lc c = 'p'
    | none => false

/-- Does position `i` of `h` start `</p>` (case-insensitive on the `p`)? -/
def closePAt (h : List Char) (i : Nat) : Bool :=
  h.get? i = some '<' && h.get? (i + 1) = some '/' &&
    (match h.get? (i + 2) with
     | some c => lc c = 'p'
     | none => false) &&
    h.get? (i + 3) = some '>'

/-- First position `≥ i` where `</p>` starts. -/
def findCloseP (h : List Char) (i : Nat) : Option Nat :=
  scanFirst (closePAt h) i (h.length + 1 - i)

/--
The leftmost match of `/<p[^>]*>([\s\S]*?)<\/p>/gi` at or after `pos`,
returned as `(start, end)`.

The regex is deterministic: at the first position `s ≥ pos` that starts
`<p` (case-insensitively), `[^>]*>` must run to the first `>` at `≥ s+2`,
and the lazy group then ends at the first `</p>` after it.  If either
search fails there is no match anywhere later either (both searched
character sets only shrink as `s` grows), so the scan may stop.
-/
def nextPMatch (h : List Char) (pos : Nat) : Option (Nat × Nat) :=
  match scanFirst (isPOpenAt h) pos (h.length + 1 - pos) with
  | none => none
  | some s =>
    match scanFirst (fun t => h.get? t = some '>') (s + 2) (h.length + 1) with
    | none => none
    | some j =>
      match findCloseP h (j + 1) with
      | none => none
      | some m => some (s, m + 4)

/-- The body of the `extractParagraphs` scan loop.  `fuel` only bounds the
number of matches; every match has length ≥ 7 and `lastIndex` advances past
it, so `h.length + 1` matches can never be reached. -/
def extractParagraphsAux (h : List Char) : Nat → Nat → Nat → Nat → List ParagraphInfo
  | 0, _, _, _ => []
  | fuel + 1, pos, idx, cumWords =>
    match nextPMatch h pos with
    | none => []
    | some (s, e) =>
      let para := listExtract h s e
      let text := trimWs (stripTags para)
      let wc := (wordRuns text).length
      { html := para
        text := text
        index := idx
        wordCount := wc
        cumulativeWords := cumWords + wc
        hasLink := containsAWs para
        startOffset := s
        endOffset := e } :: extractParagraphsAux h fuel e (idx + 1) (cumWords + wc)

/-- `extractParagraphs` of the source: all `<p…>…</p>` matches in order,
with tag-stripped text, word counts, running word totals and the
`hasLink` flag. -/
def extractParagraphs (h : List Char) : List ParagraphInfo :=
  extractParagraphsAux h (h.length + 1) 0 0 0

/-- The `{ anchor, score }` result record of `findBestAnchor`. -/
structure AnchorResult where
  anchor : List Char
  score : Score
deriving DecidableEq, Repr

/-- The `(len, i)` iteration pairs of the sliding-window loops:
`len` from `3` to `min 7 n`, and for each, `i` from `0` to `n - len`. -/
def windowPairs (n : Nat) : List (Nat × Nat) :=
  (List.range' 3 (min 7 n - 2)).flatMap
    (fun len => (List.range (n - len + 1)).map (fun i => (len, i)))

/-- The window-length bonus of the scoring formula: `8` for 4–6-word
windows, `2` for 3-word windows, `0` otherwise. -/
def lengthBonusOf (len : Nat) : Int :=
  if 4 ≤ len ∧ len ≤ 6 then 8 else if len = 3 then 2 else 0

/-- One iteration of the window loop of `findBestAnchor` (lines 139–172 of
the source), updating the running best candidate. -/
def windowStep (words : List (List Char)) (titleStems allTargetStems : List (List Char))
    (best : Option AnchorResult) (li : Nat × Nat) : Option AnchorResult :=
  let len := li.1
  let i := li.2
  let phrase := joinSp ((words.drop i).take len)
  let cleaned := trimWs (keepAlnumSp phrase)
  if cleaned.length < 8 then best
  else
    let phraseStems := significantTokens cleaned
    if phraseStems = [] then best
    else
      let firstWord := lcAlphaOnly (words.getD i [])
      let lastWord := lcAlphaOnly (words.getD (i + len - 1) [])
      if isStop firstWord || isStop lastWord then best
      else
        let overlap := (phraseStems.filter (allTargetStems.contains ·)).length
        if overlap = 0 then best
        else
          let overlapRatio := (Score.ofInt overlap).divNat phraseStems.length
          let titleOverlap := (phraseStems.filter (titleStems.contains ·)).length
          let score :=
            (((overlapRatio.mulInt 40).add (Score.ofInt (overlap * 8))).add
              (Score.ofInt (lengthBonusOf len))).add (Score.ofInt (titleOverlap * 5))
          match best with
          | none => some ⟨phrase, score⟩
          | some b => if Score.blt b.score score then some ⟨phrase, score⟩ else best

/-- The `(len, i)` iteration pairs of the fallback loop: `len` from
`min 4 tl` down to `2`, and for each, `i` from `0` to `tl - len`. -/
def fallbackPairs (tl : Nat) : List (Nat × Nat) :=
  ((List.range' 2 (min 4 tl - 1)).reverse).flatMap
    (fun len => (List.range (tl - len + 1)).map (fun i => (len, i)))

/-- One iteration of the fallback loop of `findBestAnchor` (lines 180–194):
a case-insensitive verbatim search of a `len`-word run of the title inside
the paragraph, scored `len * 12 + 10`. -/
def fallbackStep (paraText : List Char) (titleWords : List (List Char))
    (best : Option AnchorResult) (li : Nat × Nat) : Option AnchorResult :=
  let len := li.1
  let i := li.2
  let snippet := joinSp ((titleWords.drop i).take len)
  match listIndexOf (lcList paraText) (lcList snippet) with
  | none => best
  | some pos =>
    let actual := listExtract paraText pos (pos + snippet.length)
    let newScore := Score.ofInt (len * 12 + 10)
    match best with
    | none => some ⟨actual, newScore⟩
    | some b => if Score.blt b.score newScore then some ⟨actual, newScore⟩ else best

/-- The stems of the page title (`titleStems`, wrapped in a set by the
source; only membership and emptiness are ever used, which list membership
models exactly). -/
def titleStemsOf (page : SitePage) : List (List Char) := significantTokens page.title

/-- `titleStems ∪ keywordStems` (`allTargetStems`). -/
def allTargetStemsOf (page : SitePage) : List (List Char) :=
  titleStemsOf page ++ (page.keywords.getD []).flatMap significantTokens

/-- `title.split(/\s+/).filter(w => w.length > 2)` — the raw title words
used by the fallback search. -/
def titleWordsOf (page : SitePage) : List (List Char) :=
  (jsSplitWs page.title).filter (fun w => w.length > 2)

/-- The sliding-window phase of `findBestAnchor` (lines 138–173). -/
def windowBest (paraText : List Char) (page : SitePage) : Option AnchorResult :=
  (windowPairs (jsSplitWs paraText).length).foldl
    (windowStep (jsSplitWs paraText) (titleStemsOf page) (allTargetStemsOf page)) none

/-- The fallback phase of `findBestAnchor` (lines 176–195), run only when
the window phase produced nothing or a best below 15. -/
def fallbackBest (paraText : List Char) (page : SitePage) (best1 : Option AnchorResult) :
    Option AnchorResult :=
  if (match best1 with
      | none => true
      | some b => Score.blt b.score (Score.ofInt 15)) then
    (fallbackPairs (titleWordsOf page).length).foldl
      (fallbackStep paraText (titleWordsOf page)) best1
  else best1

/--
`findBestAnchor` of the source: the best 3–7-word window of the paragraph
by stem overlap with the page's title and keywords; when no window clears
a score of 15, a direct case-insensitive substring search of 2–4-word runs
of the raw title; `none` unless the final best scores at least 10.
-/
def findBestAnchor (paraText : List Char) (page : SitePage) : Option AnchorResult :=
  if allTargetStemsOf page = [] then none
  else if (jsSplitWs paraText).length < 5 then none
  else
    match fallbackBest paraText page (windowBest paraText page) with
    | none => none
    | some b => if Score.ble (Score.ofInt 10) b.score then some b else none

/-- The candidate pool of `generateLinkOpportunities` (lines 225–239):
for every paragraph that has no link and at least 12 words, and every
catalog page, the best anchor if one exists. -/
def genCandidates (pages : List SitePage) (h : List Char) : List ScoredCandidate :=
  (extractParagraphs h).flatMap fun para =>
    if para.hasLink || para.wordCount < 12 then []
    else
      pages.filterMap fun page =>
        (findBestAnchor para.text page).map fun r =>
          { paragraph := para, page := page, anchor := r.anchor, score := r.score }

/-- Insertion of one candidate into a score-descending list, placing it
before the first strictly smaller score; `foldr`-ing it implements the
stable sort `candidates.sort((a, b) => b.score - a.score)`. -/
def insertDesc (c : ScoredCandidate) : List ScoredCandidate → List ScoredCandidate
  | [] => [c]
  | x :: xs => if Score.ble x.score c.score then c :: x :: xs else x :: insertDesc c xs

/-- Stable sort by score descending. -/
def sortByScoreDesc (l : List ScoredCandidate) : List ScoredCandidate :=
  l.foldr insertDesc []

/-- The greedy selection loop of `generateLinkOpportunities` (lines
250–272), kept on `ScoredCandidate` so the host paragraph of each accepted
link stays visible; `remaining` counts down from the limit.  The spacing
test is the source's signed comparison
`c.paragraph.cumulativeWords - lastCumulativeWords < 250`. -/
def selectCandidates : List ScoredCandidate → Nat → List (List Char) → List Nat → Nat →
    List ScoredCandidate
  | [], _, _, _, _ => []
  | c :: cs, remaining, usedUrls, usedParas, lastCum =>
    if remaining = 0 then []
    else if c.page.url ∈ usedUrls then selectCandidates cs remaining usedUrls usedParas lastCum
    else if c.paragraph.index ∈ usedParas then
      selectCandidates cs remaining usedUrls usedParas lastCum
    else if lastCum > 0 ∧ (c.paragraph.cumulativeWords : Int) - (lastCum : Int) < 250 then
      selectCandidates cs remaining usedUrls usedParas lastCum
    else
      c :: selectCandidates cs (remaining - 1) (c.page.url :: usedUrls)
        (c.paragraph.index :: usedParas) c.paragraph.cumulativeWords

/-- The accepted candidates of one `generateLinkOpportunities` call. -/
def selectedCandidates (pages : List SitePage) (h : List Char) (maxLinks : Option Nat) :
    List ScoredCandidate :=
  if pages = [] then []
  else selectCandidates (sortByScoreDesc (genCandidates pages h)) (maxLinks.getD 10) [] [] 0

/-- The `InternalLink` record pushed for an accepted candidate
(lines 258–267). -/
def toInternalLink (c : ScoredCandidate) : InternalLink :=
  { anchor := c.anchor
    anchorText := c.anchor
    targetUrl := c.page.url
    url := c.page.url
    text := c.anchor
    context := c.paragraph.text.take 120
    priority := c.score
    relevanceScore := c.score.min100 }

/-- `generateLinkOpportunities` of the source: empty catalog short-circuits
to `[]`; otherwise candidates are generated, sorted by score descending and
greedily selected under the uniqueness and spacing constraints. -/
def generateLinkOpportunities (pages : List SitePage) (h : List Char)
    (maxLinks : Option Nat) : List InternalLink :=
  if pages = [] then []
  else (selectedCandidates pages h maxLinks).map toInternalLink

/-- Is the character at position `i` of `h` a word character (out of range
counts as non-word)? -/
def isWordAt (h : List Char) (i : Nat) : Bool :=
  match h.get? i with
  | some c => isWordChar c
  | none => false

/-- The regex `\b` word-boundary test at position `i` of `h`. -/
def wbAt (h : List Char) (i : Nat) : Bool :=
  isWordAt h i != (i != 0 && isWordAt h (i - 1))

/-- Does `h` match `pat` case-insensitively at position `k` (the escaped
anchor under the `i` flag: a literal, case-folded comparison)? -/
def matchCIAt (h pat : List Char) (k : Nat) : Bool :=
  decide (k + pat.length ≤ h.length) &&
    decide (lcList (listExtract h k (k + pat.length)) = lcList pat)

/-- A successful match of the injection regex
`(<p[^>]*>)((?:(?!</p>)[\s\S])*?)\b(anchor)\b((?:(?!</p>)[\s\S])*?</p>)`:
`s` is the match start, `oe` the end of the `<p…>` open tag, `k` the anchor
position, `aLen` the anchor length and `m` the position of the closing
`</p>`, so the whole match is `h[s, m+4)`. -/
structure InjMatch where
  s : Nat
  oe : Nat
  k : Nat
  aLen : Nat
  m : Nat
deriving DecidableEq, Repr

/-- Can the lazy middle part place the anchor at position `k`?  Word
boundary before and after, the anchor itself case-insensitively, and (for
the final lazy part) some `</p>` at or after the anchor's end. -/
def anchorFitsAt (h anchor : List Char) (k : Nat) : Bool :=
  wbAt h k && matchCIAt h anchor k && wbAt h (k + anchor.length) &&
    (findCloseP h (k + anchor.length)).isSome

/--
The injection regex matched at start position `s` (or `none`).

Backtracking unfolded: `<p` must match at `s` literally (case-insensitive);
`[^>]*>` runs to the first `>` at `≥ s+2`; the first lazy group may consume
characters up to — but not past — the first `</p>` after the open tag
(its `(?!</p>)` lookahead); the anchor is placed at the smallest admissible
`k`; the final lazy group ends at the first `</p>` at or after the anchor's
end. -/
def tryMatchAt (h anchor : List Char) (s : Nat) : Option InjMatch :=
  if isPOpenAt h s then
    match scanFirst (fun t => h.get? t = some '>') (s + 2) (h.length + 1) with
    | none => none
    | some j =>
      match findCloseP h (j + 1) with
      | none => none
      | some q =>
        match scanFirst (anchorFitsAt h anchor) (j + 1) (q + 1 - (j + 1)) with
        | none => none
        | some k =>
          match findCloseP h (k + anchor.length) with
          | none => none
          | some m => some ⟨s, j + 1, k, anchor.length, m⟩
  else none

/-- The leftmost match of the injection regex over the whole document. -/
def findInjMatch (h anchor : List Char) : Option InjMatch :=
  match scanFirst (fun s => (tryMatchAt h anchor s).isSome) 0 (h.length + 1) with
  | none => none
  | some s => tryMatchAt h anchor s

/-- The markup wrapped around the matched anchor text (line 313 of the
source, with its inline style attribute verbatim). -/
def linkify (url matched : List Char) : List Char :=
  ("<a href=\"").data ++ url ++
    ("\" style=\"color: #059669; text-decoration: underline; text-decoration-color: rgba(5,150,105,0.3); text-underline-offset: 3px; font-weight: 600; transition: all 0.2s ease;\">").data ++
    matched ++ ("</a>").data

/-- `link.anchor || link.anchorText || link.text || ''` (JS `||` on
strings: first non-empty). -/
def effAnchor (link : InternalLink) : List Char :=
  if link.anchor ≠ [] then link.anchor
  else if link.anchorText ≠ [] then link.anchorText
  else link.text

/-- `link.targetUrl || link.url || ''`. -/
def effUrl (link : InternalLink) : List Char :=
  if link.targetUrl ≠ [] then link.targetUrl else link.url

/-- The spliced document after a successful injection: everything before
the match, the open tag and pre-anchor text unchanged, the matched anchor
text wrapped by `linkify`, the rest of the paragraph, and everything after
the match. -/
def spliceAt (h : List Char) (M : InjMatch) (url : List Char) : List Char :=
  listExtract h 0 M.s ++
    (listExtract h M.s M.oe ++ listExtract h M.oe M.k ++
      linkify url (listExtract h M.k (M.k + M.aLen)) ++
      listExtract h (M.k + M.aLen) (M.m + 4)) ++
    h.drop (M.m + 4)

/-- One iteration of the injection loop (lines 289–316): resolve anchor and
URL, reject short anchors, find the leftmost regex match, skip if the
matched paragraph already contains `<a` + whitespace, otherwise splice the
wrapped anchor in. -/
def stepLink (h : List Char) (link : InternalLink) : List Char :=
  let anchor := effAnchor link
  let url := effUrl link
  if anchor = [] ∨ url = [] ∨ anchor.length < 4 then h
  else
    match findInjMatch h anchor with
    | none => h
    | some M =>
      if containsAWs (listExtract h M.s (M.m + 4)) then h
      else spliceAt h M url

/-- `injectContextualLinks` of the source: fold the injection step over the
decision list (the source's `extractParagraphs(result)` at line 284 is dead
code and its `sortedLinks` is an unsorted copy of `links`). -/
def injectContextualLinks (h : List Char) (links : List InternalLink) : List Char :=
  links.foldl stepLink h

/-- `updateSitePages` / the constructor: `this.pages = pages || []`. -/
def updateSitePages (pages? : Option (List SitePage)) : List SitePage := pages?.getD []

/-- The shape of every result the window phase can produce: the anchor is a
contiguous run of `3`–`7` of the paragraph's whitespace-split words, joined
by single spaces, whose first and last words are not stop-words. -/
def WindowAnchorProp (words : List (List Char)) (r : AnchorResult) : Prop :=
  ∃ len i, 3 ≤ len ∧ len ≤ 7 ∧ i + len ≤ words.length ∧
    r.anchor = joinSp ((words.drop i).take len) ∧
    isStop (lcAlphaOnly (words.getD i [])) = false ∧
    isStop (lcAlphaOnly (words.getD (i + len - 1) [])) = false

/-- The shape of every result the fallback phase can produce: the anchor is
the case-preserving substring of the paragraph at the first
case-insensitive occurrence of a run of `2`–`4` title words. -/
def FallbackAnchorProp (paraText : List Char) (titleWords : List (List Char))
    (r : AnchorResult) : Prop :=
  ∃ len i pos, 2 ≤ len ∧ len ≤ 4 ∧ i + len ≤ titleWords.length ∧
    listIndexOf (lcList paraText) (lcList (joinSp ((titleWords.drop i).take len))) = some pos ∧
    r.anchor = listExtract paraText pos (pos + (joinSp ((titleWords.drop i).take len)).length) ∧
    lcList r.anchor = lcList (joinSp ((titleWords.drop i).take len))

/-- Claim-level predicate for the injector: the anchor occurs (via the
injection regex, so whole-word-bounded and inside a `<p…>…</p>` region) in
at least one paragraph region free of `<a` + whitespace link markup. -/
def existsCleanParagraphOccurrence (h anchor : List Char) : Bool :=
  (List.range (h.length + 1)).any fun s =>
    match tryMatchAt h anchor s with
    | some M => !containsAWs (listExtract h M.s (M.m + 4))
    | none => false

/-! ## Concrete inputs used by the witnesses and counterexamples -/

/-- A catalog page, taken from the specification's worked example. -/
def pgSourdough : SitePage :=
  ⟨"/guides/sourdough".data, "Sourdough Baking Guide".data, none⟩

/-- The paragraph text of the specification's worked example. -/
def textSourdough : List Char :=
  "The complete guide to sourdough baking requires patience and the right flour".data

/-- The worked example as a one-paragraph document. -/
def htmlSourdough : List Char :=
  "<p>The complete guide to sourdough baking requires patience and the right flour</p>".data

/-- The one candidate the engine finds on `htmlSourdough`. -/
def cSourdough : ScoredCandidate :=
  { paragraph :=
      { html := htmlSourdough
        text := textSourdough
        index := 0
        wordCount := 12
        cumulativeWords := 12
        hasLink := false
        startOffset := 0
        endOffset := 83 }
    page := pgSourdough
    anchor := "guide to sourdough baking".data
    score := ⟨261, 3⟩ }

/-- The anchor result found on the worked example. -/
def rSourdough : AnchorResult := ⟨"guide to sourdough baking".data, ⟨261, 3⟩⟩

/-- A page whose title consists of long stop-words, with a keyword that
keeps the target stem set non-empty. -/
def pgStop : SitePage := ⟨"/x".data, "And The".data, some ["zebra".data]⟩

/-- A paragraph containing the title words `and the` verbatim but nothing
stem-related to `zebra`: the window phase finds nothing, the fallback
returns the two-word anchor `and the`. -/
def textStop : List Char :=
  "lorem ipsum dolor placed and the words continue onwards beyond limits forever more".data

/-- `textStop` as a one-paragraph document. -/
def htmlStop : List Char :=
  "<p>lorem ipsum dolor placed and the words continue onwards beyond limits forever more</p>".data

/-- A decision targeting `/t` with the anchor `my anchor text`. -/
def linkT : InternalLink :=
  ⟨"my anchor text".data, "my anchor text".data, "/t".data, "/t".data,
    "my anchor text".data, [], Score.ofInt 0, Score.ofInt 0⟩

/-- One clean paragraph containing the anchor of `linkT`. -/
def docPlain : List Char := "<p>intro words my anchor text more words here</p>".data

/-- The injection match of `linkT`'s anchor on `docPlain`. -/
def matchPlain : InjMatch := ⟨0, 3, 15, 14, 45⟩

/-- First paragraph holds the anchor *and* an attributed link; the second
paragraph holds the anchor with no link markup at all. -/
def docLinkedFirst : List Char :=
  "<p>alpha my anchor text <a href=\"/e\">x</a> beta</p><p>gamma my anchor text delta</p>".data

/-- The injection match of `linkT`'s anchor on `docLinkedFirst`: it lands in
the first (already linked) paragraph. -/
def matchLinkedFirst : InjMatch := ⟨0, 3, 9, 14, 47⟩

/-- A paragraph whose existing anchor tag has no attributes (`<a>`), which
the `/<a\s/i` test does not see as a link. -/
def docBareAnchor : List Char :=
  "<p>preword <a>my anchor text</a> postword filler fill</p>".data

/-- A two-paragraph document: the injector links the first paragraph, the
second is the specification's worked example. -/
def docRoundtrip : List Char :=
  ("<p>intro words my anchor text more words here</p>" ++
    "<p>The complete guide to sourdough baking requires patience and the right flour</p>").data

/-- `docRoundtrip` after injecting `linkT`. -/
def resultRoundtrip : List Char := injectContextualLinks docRoundtrip [linkT]

/-- A default paragraph record (for safe indexing in closed statements). -/
def defaultPara : ParagraphInfo := ⟨[], [], 0, 0, 0, false, 0, 0⟩

/-- The first paragraph of `resultRoundtrip` (it carries the injected
markup). -/
def paraRoundtrip0 : ParagraphInfo :=
  (extractParagraphs resultRoundtrip).getD 0 defaultPara

/-- The candidate the generator still accepts on `resultRoundtrip` (hosted
by the second, markup-free paragraph). -/
def cRoundtrip : ScoredCandidate :=
  (selectedCandidates [pgSourdough] resultRoundtrip none).getD 0
    ⟨defaultPara, pgSourdough, [], Score.ofInt 0⟩

/-! ## Generic helper lemmas -/

theorem foldl_preserve {α β} {P : β → Prop} {f : β → α → β} :
    ∀ {l : List α} {b : β}, P b → (∀ b' a, a ∈ l → P b' → P (f b' a)) → P (l.foldl f b) := by
  intro l
  induction l with
  | nil => intro b hb _; simpa using hb
  | cons a t ih =>
    intro b hb hf
    rw [List.foldl_cons]
    exact ih (hf b a (List.mem_cons_self a t) hb)
      (fun b' x hx => hf b' x (List.mem_cons_of_mem a hx))

theorem pairwise_cases {α} {R : α → α → Prop} :
    ∀ {l : List α}, l.Pairwise R → ∀ {p q}, p ∈ l → q ∈ l → R p q ∨ R q p ∨ p = q := by
  intro l
  induction l with
  | nil => intro _ p q hp; cases hp
  | cons a t ih =>
    intro hl p q hp hq
    obtain ⟨ha, ht⟩ := List.pairwise_cons.mp hl
    rcases List.mem_cons.mp hp with rfl | hp'
    · rcases List.mem_cons.mp hq with rfl | hq'
      · exact Or.inr (Or.inr rfl)
      · exact Or.inl (ha q hq')
    · rcases List.mem_cons.mp hq with rfl | hq'
      · exact Or.inr (Or.inl (ha p hp'))
      · exact ih ht hp' hq'

theorem chain'_imp_of_mem {α} {r r' : α → α → Prop} {M : α → Prop} :
    ∀ {l : List α}, (∀ x ∈ l, M x) → l.Chain' r →
      (∀ a b, M a → M b → r a b → r' a b) → l.Chain' r' := by
  intro l
  induction l with
  | nil => intro _ _ _; exact List.chain'_nil
  | cons a t ih =>
    intro hm hc himp
    rw [List.chain'_cons'] at hc ⊢
    obtain ⟨h1, h2⟩ := hc
    refine ⟨fun y hy => ?_, ih (fun x hx => hm x (List.mem_cons_of_mem a hx)) h2 himp⟩
    exact himp a y (hm a (List.mem_cons_self a t))
      (hm y (List.mem_cons_of_mem a (List.mem_of_mem_head? hy))) (h1 y hy)

/-! ## Invariants of `extractParagraphs` -/

theorem extractParagraphsAux_facts (h : List Char) :
    ∀ (fuel pos idx cum : Nat),
      (∀ p ∈ extractParagraphsAux h fuel pos idx cum,
          idx ≤ p.index ∧ cum ≤ p.cumulativeWords ∧ p.wordCount ≤ p.cumulativeWords ∧
            p.hasLink = containsAWs p.html) ∧
        (extractParagraphsAux h fuel pos idx cum).Pairwise
          (fun a b => a.index < b.index ∧ a.cumulativeWords ≤ b.cumulativeWords) := by
  intro fuel
  induction fuel with
  | zero => intro pos idx cum; simp [extractParagraphsAux]
  | succ n ih =>
    intro pos idx cum
    rw [extractParagraphsAux]
    cases hm : nextPMatch h pos with
    | none => simp
    | some se =>
      obtain ⟨s, e⟩ := se
      obtain ⟨ihMem, ihPw⟩ := ih e (idx + 1) (cum + (wordRuns (trimWs (stripTags (listExtract h s e)))).length)
      constructor
      · intro p hp
        rcases List.mem_cons.mp hp with rfl | hp'
        · exact ⟨Nat.le_refl _, Nat.le_add_right _ _, Nat.le_add_left _ _, rfl⟩
        · obtain ⟨h1, h2, h3, h4⟩ := ihMem p hp'
          exact ⟨by omega, by omega, h3, h4⟩
      · refine List.pairwise_cons.mpr ⟨fun p hp' => ?_, ihPw⟩
        obtain ⟨h1, h2, _, _⟩ := ihMem p hp'
        constructor <;> dsimp only <;> omega

theorem mem_extractParagraphs {h : List Char} {p : ParagraphInfo}
    (hp : p ∈ extractParagraphs h) :
    p.wordCount ≤ p.cumulativeWords ∧ p.hasLink = containsAWs p.html :=
  ⟨((extractParagraphsAux_facts h _ 0 0 0).1 p hp).2.2.1,
   ((extractParagraphsAux_facts h _ 0 0 0).1 p hp).2.2.2⟩

/-- Paragraphs of one extraction are ordered consistently: a strictly
smaller running word total means an earlier paragraph index. -/
theorem extractParagraphs_cw_lt_index {h : List Char} {p q : ParagraphInfo}
    (hp : p ∈ extractParagraphs h) (hq : q ∈ extractParagraphs h)
    (hcw : p.cumulativeWords < q.cumulativeWords) : p.index < q.index := by
  have hpw := (extractParagraphsAux_facts h (h.length + 1) 0 0 0).2
  rcases pairwise_cases hpw hp hq with h1 | h2 | h3
  · exact h1.1
  · exact absurd h2.2 (by omega)
  · subst h3; omega

/-! ## Invariants of candidate generation and selection -/

theorem mem_genCandidates {pages : List SitePage} {h : List Char} {c : ScoredCandidate}
    (hc : c ∈ genCandidates pages h) :
    c.paragraph ∈ extractParagraphs h ∧ c.paragraph.hasLink = false ∧
      12 ≤ c.paragraph.wordCount ∧ c.page ∈ pages ∧
      findBestAnchor c.paragraph.text c.page = some ⟨c.anchor, c.score⟩ := by
  simp only [genCandidates, List.mem_flatMap] at hc
  obtain ⟨para, hpara, hc⟩ := hc
  by_cases hg : (para.hasLink || decide (para.wordCount < 12)) = true
  · rw [if_pos hg] at hc; cases hc
  · rw [if_neg hg] at hc
    simp only [Bool.or_eq_true, decide_eq_true_eq, not_or] at hg
    obtain ⟨page, hpage, hmap⟩ := List.mem_filterMap.mp hc
    cases hr : findBestAnchor para.text page with
    | none => rw [hr] at hmap; cases hmap
    | some r =>
      rw [hr] at hmap
      simp only [Option.map_some'] at hmap
      cases hmap
      exact ⟨hpara, Bool.eq_false_iff.mpr hg.1, by dsimp only; omega, hpage, by rw [hr]⟩

theorem mem_insertDesc {c x : ScoredCandidate} :
    ∀ {l : List ScoredCandidate}, x ∈ insertDesc c l → x = c ∨ x ∈ l := by
  intro l
  induction l with
  | nil => intro hx; simp [insertDesc] at hx; simp [hx]
  | cons a t ih =>
    intro hx
    rw [insertDesc] at hx
    by_cases hs : Score.ble a.score c.score = true
    · rw [if_pos hs] at hx
      rcases List.mem_cons.mp hx with rfl | hx' <;> simp_all
    · rw [if_neg hs] at hx
      rcases List.mem_cons.mp hx with rfl | hx'
      · simp
      · rcases ih hx' with rfl | hmem <;> simp_all

theorem mem_sortByScoreDesc {x : ScoredCandidate} :
    ∀ {l : List ScoredCandidate}, x ∈ sortByScoreDesc l → x ∈ l := by
  intro l
  induction l with
  | nil => intro hx; simp [sortByScoreDesc] at hx
  | cons a t ih =>
    intro hx
    rcases mem_insertDesc hx with rfl | hx'
    · simp
    · exact List.mem_cons_of_mem a (ih hx')

theorem selectCandidates_subset :
    ∀ (cs : List ScoredCandidate) (rem : Nat) (urls : List (List Char)) (paras : List Nat)
      (lastCum : Nat) {x}, x ∈ selectCandidates cs rem urls paras lastCum → x ∈ cs := by
  intro cs
  induction cs with
  | nil => intro _ _ _ _ x hx; simp [selectCandidates] at hx
  | cons c t ih =>
    intro rem urls paras lastCum x hx
    rw [selectCandidates] at hx
    split_ifs at hx with h1 h2 h3 h4
    · cases hx
    · exact List.mem_cons_of_mem c (ih _ _ _ _ hx)
    · exact List.mem_cons_of_mem c (ih _ _ _ _ hx)
    · exact List.mem_cons_of_mem c (ih _ _ _ _ hx)
    · rcases List.mem_cons.mp hx with rfl | hx'
      · exact List.mem_cons_self _ _
      · exact List.mem_cons_of_mem c (ih _ _ _ _ hx')

theorem selectCandidates_urls :
    ∀ (cs : List ScoredCandidate) (rem : Nat) (urls : List (List Char)) (paras : List Nat)
      (lastCum : Nat),
      (∀ x ∈ selectCandidates cs rem urls paras lastCum, x.page.url ∉ urls) ∧
        (selectCandidates cs rem urls paras lastCum).Pairwise
          (fun a b => a.page.url ≠ b.page.url) := by
  intro cs
  induction cs with
  | nil => intro _ _ _ _; simp [selectCandidates]
  | cons c t ih =>
    intro rem urls paras lastCum
    rw [selectCandidates]
    split_ifs with h1 h2 h3 h4
    · simp
    · exact ih _ _ _ _
    · exact ih _ _ _ _
    · exact ih _ _ _ _
    · obtain ⟨ihMem, ihPw⟩ := ih (rem - 1) (c.page.url :: urls) (c.paragraph.index :: paras)
        c.paragraph.cumulativeWords
      constructor
      · intro x hx
        rcases List.mem_cons.mp hx with rfl | hx'
        · exact h2
        · exact fun hmem => ihMem x hx' (List.mem_cons_of_mem _ hmem)
      · refine List.pairwise_cons.mpr ⟨fun x hx' => ?_, ihPw⟩
        intro heq
        exact ihMem x hx' (heq ▸ List.mem_cons_self _ _)

theorem selectCandidates_paras :
    ∀ (cs : List ScoredCandidate) (rem : Nat) (urls : List (List Char)) (paras : List Nat)
      (lastCum : Nat),
      (∀ x ∈ selectCandidates cs rem urls paras lastCum, x.paragraph.index ∉ paras) ∧
        (selectCandidates cs rem urls paras lastCum).Pairwise
          (fun a b => a.paragraph.index ≠ b.paragraph.index) := by
  intro cs
  induction cs with
  | nil => intro _ _ _ _; simp [selectCandidates]
  | cons c t ih =>
    intro rem urls paras lastCum
    rw [selectCandidates]
    split_ifs with h1 h2 h3 h4
    · simp
    · exact ih _ _ _ _
    · exact ih _ _ _ _
    · exact ih _ _ _ _
    · obtain ⟨ihMem, ihPw⟩ := ih (rem - 1) (c.page.url :: urls) (c.paragraph.index :: paras)
        c.paragraph.cumulativeWords
      constructor
      · intro x hx
        rcases List.mem_cons.mp hx with rfl | hx'
        · exact h3
        · exact fun hmem => ihMem x hx' (List.mem_cons_of_mem _ hmem)
      · refine List.pairwise_cons.mpr ⟨fun x hx' => ?_, ihPw⟩
        intro heq
        exact ihMem x hx' (heq ▸ List.mem_cons_self _ _)

/-- The spacing invariant of the greedy loop: every accepted candidate is
at least 250 cumulative words past the previous accepted one (when one
exists), so accepted cumulative word counts ascend in steps of ≥ 250. -/
theorem selectCandidates_spacing :
    ∀ (cs : List ScoredCandidate) (rem : Nat) (urls : List (List Char)) (paras : List Nat)
      (lastCum : Nat),
      (∀ c ∈ cs, 0 < c.paragraph.cumulativeWords) →
      (∀ x ∈ selectCandidates cs rem urls paras lastCum,
          (0 < lastCum → (lastCum : Int) + 250 ≤ (x.paragraph.cumulativeWords : Int)) ∧
            0 < x.paragraph.cumulativeWords) ∧
        (selectCandidates cs rem urls paras lastCum).Chain'
          (fun a b => (a.paragraph.cumulativeWords : Int) + 250 ≤
            (b.paragraph.cumulativeWords : Int)) := by
  intro cs
  induction cs with
  | nil => intro _ _ _ _ _; simp [selectCandidates]
  | cons c t ih =>
    intro rem urls paras lastCum hpos
    have hpos' : ∀ x ∈ t, 0 < x.paragraph.cumulativeWords :=
      fun x hx => hpos x (List.mem_cons_of_mem c hx)
    rw [selectCandidates]
    split_ifs with h1 h2 h3 h4
    · simp
    · exact ih _ _ _ _ hpos'
    · exact ih _ _ _ _ hpos'
    · exact ih _ _ _ _ hpos'
    · obtain ⟨ihMem, ihChain⟩ := ih (rem - 1) (c.page.url :: urls) (c.paragraph.index :: paras)
        c.paragraph.cumulativeWords hpos'
      have hcpos : 0 < c.paragraph.cumulativeWords := hpos c (List.mem_cons_self c t)
      have hgap : 0 < lastCum → (lastCum : Int) + 250 ≤ (c.paragraph.cumulativeWords : Int) := by
        intro hlc
        rcases not_and_or.mp h4 with hbad | hok
        · omega
        · omega
      constructor
      · intro x hx
        rcases List.mem_cons.mp hx with rfl | hx'
        · exact ⟨hgap, hcpos⟩
        · obtain ⟨hg, hp⟩ := ihMem x hx'
          exact ⟨fun hlc => by have := hg hcpos; omega, hp⟩
      · refine List.chain'_cons'.mpr ⟨fun y hy => ?_, ihChain⟩
        exact (ihMem y (List.mem_of_mem_head? hy)).1 hcpos

theorem mem_selectedCandidates {pages : List SitePage} {h : List Char}
    {maxLinks : Option Nat} {c : ScoredCandidate}
    (hc : c ∈ selectedCandidates pages h maxLinks) : c ∈ genCandidates pages h := by
  unfold selectedCandidates at hc
  by_cases hp : pages = []
  · rw [if_pos hp] at hc; cases hc
  · rw [if_neg hp] at hc
    exact mem_sortByScoreDesc (selectCandidates_subset _ _ _ _ _ hc)

/-- The two ordering facts shared by the selection claims: accepted
candidates ascend in cumulative word count by steps of at least 250, and
hence also ascend in paragraph index. -/
theorem selected_chain_facts (pages : List SitePage) (h : List Char) (maxLinks : Option Nat) :
    (selectedCandidates pages h maxLinks).Chain'
        (fun a b => (a.paragraph.cumulativeWords : Int) + 250 ≤
          (b.paragraph.cumulativeWords : Int)) ∧
      (selectedCandidates pages h maxLinks).Chain'
        (fun a b => a.paragraph.index < b.paragraph.index) := by
  have hmem : ∀ x ∈ selectedCandidates pages h maxLinks,
      x.paragraph ∈ extractParagraphs h :=
    fun x hx => (mem_genCandidates (mem_selectedCandidates hx)).1
  have hchain : (selectedCandidates pages h maxLinks).Chain'
      (fun a b => (a.paragraph.cumulativeWords : Int) + 250 ≤
        (b.paragraph.cumulativeWords : Int)) := by
    unfold selectedCandidates
    by_cases hp : pages = []
    · rw [if_pos hp]; exact List.chain'_nil
    · rw [if_neg hp]
      have hpos : ∀ c ∈ sortByScoreDesc (genCandidates pages h),
          0 < c.paragraph.cumulativeWords := by
        intro c hc
        have hg := mem_genCandidates (mem_sortByScoreDesc hc)
        have hwc := (mem_extractParagraphs hg.1).1
        omega
      exact (selectCandidates_spacing _ (maxLinks.getD 10) [] [] 0 hpos).2
  refine ⟨hchain, chain'_imp_of_mem hmem hchain ?_⟩
  intro a b ha hb hr
  exact extractParagraphs_cw_lt_index ha hb (by omega)

/-! ## Shape of the anchors `findBestAnchor` can produce -/

theorem mem_windowPairs {n len i : Nat} (h : (len, i) ∈ windowPairs n) :
    3 ≤ len ∧ len ≤ 7 ∧ i + len ≤ n := by
  simp only [windowPairs, List.mem_flatMap, List.mem_map, List.mem_range'_1,
    List.mem_range] at h
  obtain ⟨len', ⟨hge, hlt⟩, i', hi', heq⟩ := h
  obtain ⟨rfl, rfl⟩ := Prod.mk.injEq .. ▸ heq
  omega

theorem mem_fallbackPairs {tl len i : Nat} (h : (len, i) ∈ fallbackPairs tl) :
    2 ≤ len ∧ len ≤ 4 ∧ i + len ≤ tl := by
  simp only [fallbackPairs, List.mem_flatMap, List.mem_reverse, List.mem_map,
    List.mem_range'_1, List.mem_range] at h
  obtain ⟨len', ⟨hge, hlt⟩, i', hi', heq⟩ := h
  obtain ⟨rfl, rfl⟩ := Prod.mk.injEq .. ▸ heq
  omega

theorem lcList_listExtract (l : List Char) (a b : Nat) :
    lcList (listExtract l a b) = listExtract (lcList l) a b := by
  simp [lcList, listExtract, List.map_take, List.map_drop]

theorem windowStep_preserve {words titleStems allTarget : List (List Char)}
    {st : Option AnchorResult} {li : Nat × Nat}
    (hli : li ∈ windowPairs words.length)
    (hst : ∀ x, st = some x → WindowAnchorProp words x) :
    ∀ x, windowStep words titleStems allTarget st li = some x → WindowAnchorProp words x := by
  obtain ⟨len, i⟩ := li
  obtain ⟨h3, h7, hin⟩ := mem_windowPairs hli
  intro x hx
  simp only [windowStep] at hx
  split_ifs at hx with hc1 hc2 hc3 hc4
  · exact hst x hx
  · exact hst x hx
  · exact hst x hx
  · exact hst x hx
  · have hstop : isStop (lcAlphaOnly (words.getD i [])) = false ∧
        isStop (lcAlphaOnly (words.getD (i + len - 1) [])) = false := by
      constructor <;> [skip; skip] <;>
        · revert hc3
          simp only [Bool.or_eq_true, not_or, Bool.not_eq_true]
          tauto
    cases st with
    | none =>
      simp only at hx
      cases hx
      exact ⟨len, i, h3, h7, hin, rfl, hstop.1, hstop.2⟩
    | some b =>
      simp only at hx
      split_ifs at hx
      · cases hx
        exact ⟨len, i, h3, h7, hin, rfl, hstop.1, hstop.2⟩
      · exact hst x hx

theorem fallbackStep_preserve {paraText : List Char} {titleWords : List (List Char)}
    {st : Option AnchorResult} {li : Nat × Nat}
    (hli : li ∈ fallbackPairs titleWords.length)
    (hst : ∀ x, st = some x → WindowAnchorProp (jsSplitWs paraText) x ∨
      FallbackAnchorProp paraText titleWords x) :
    ∀ x, fallbackStep paraText titleWords st li = some x →
      WindowAnchorProp (jsSplitWs paraText) x ∨ FallbackAnchorProp paraText titleWords x := by
  obtain ⟨len, i⟩ := li
  obtain ⟨h2, h4, hin⟩ := mem_fallbackPairs hli
  intro x hx
  simp only [fallbackStep] at hx
  cases hpos : listIndexOf (lcList paraText) (lcList (joinSp ((titleWords.drop i).take len))) with
  | none => rw [hpos] at hx; exact hst x hx
  | some pos =>
    rw [hpos] at hx
    have hfb : FallbackAnchorProp paraText titleWords
        ⟨listExtract paraText pos
          (pos + (joinSp ((titleWords.drop i).take len)).length), Score.ofInt (len * 12 + 10)⟩ := by
      refine ⟨len, i, pos, h2, h4, hin, hpos, rfl, ?_⟩
      have := listIndexOf_some hpos
      rw [lcList_listExtract]
      simpa [lcList] using this
    cases st with
    | none =>
      simp only at hx
      cases hx
      exact Or.inr hfb
    | some b =>
      simp only at hx
      split_ifs at hx
      · cases hx
        exact Or.inr hfb
      · exact hst x hx

/-- Every anchor `findBestAnchor` returns comes from one of the two
branches: a 3–7-word window of the paragraph whose end words are not
stop-words, or the case-preserving copy of a 2–4-word run of the raw title
found case-insensitively in the paragraph. -/
theorem findBestAnchor_shape {paraText : List Char} {page : SitePage} {r : AnchorResult}
    (h : findBestAnchor paraText page = some r) :
    WindowAnchorProp (jsSplitWs paraText) r ∨
      FallbackAnchorProp paraText (titleWordsOf page) r := by
  unfold findBestAnchor at h
  split_ifs at h with h1 h2
  have hwin : ∀ x, windowBest paraText page = some x →
      WindowAnchorProp (jsSplitWs paraText) x := by
    unfold windowBest
    refine foldl_preserve (P := fun st => ∀ x, st = some x →
      WindowAnchorProp (jsSplitWs paraText) x) (fun x hx => by cases hx) ?_
    intro st li hli hst
    exact windowStep_preserve hli hst
  have hfb : ∀ x, fallbackBest paraText page (windowBest paraText page) = some x →
      WindowAnchorProp (jsSplitWs paraText) x ∨
        FallbackAnchorProp paraText (titleWordsOf page) x := by
    unfold fallbackBest
    split_ifs with hcond
    · refine foldl_preserve (P := fun st => ∀ x, st = some x →
        WindowAnchorProp (jsSplitWs paraText) x ∨
          FallbackAnchorProp paraText (titleWordsOf page) x)
        (fun x hx => Or.inl (hwin x hx)) ?_
      intro st li hli hst
      exact fallbackStep_preserve hli hst
    · exact fun x hx => Or.inl (hwin x hx)
  cases hb : fallbackBest paraText page (windowBest paraText page) with
  | none => rw [hb] at h; cases h
  | some b =>
    rw [hb] at h
    dsimp only at h
    by_cases hs : Score.ble (Score.ofInt 10) b.score = true
    · rw [if_pos hs] at h
      cases h
      exact hfb _ hb
    · rw [if_neg hs] at h
      cases h

/-! ## The claims -/

/-- C1.  For every HTML input, catalog and `maxLinks` value, the links
returned by `generateLinkOpportunities` have pairwise-distinct target URLs,
and the accepted candidates they are built from sit in pairwise-distinct
paragraphs: no two returned links share a destination page URL or a host
paragraph. -/
theorem c1_distinct_urls_and_paragraphs (pages : List SitePage) (h : List Char)
    (maxLinks : Option Nat) :
    (generateLinkOpportunities pages h maxLinks).Pairwise
        (fun a b => a.targetUrl ≠ b.targetUrl) ∧
      (selectedCandidates pages h maxLinks).Pairwise
        (fun a b => a.paragraph.index ≠ b.paragraph.index) := by
  have hurl : (selectedCandidates pages h maxLinks).Pairwise
      (fun a b => a.page.url ≠ b.page.url) := by
    unfold selectedCandidates
    by_cases hp : pages = []
    · rw [if_pos hp]; exact List.Pairwise.nil
    · rw [if_neg hp]; exact (selectCandidates_urls _ _ _ _ _).2
  have hidx : (selectedCandidates pages h maxLinks).Pairwise
      (fun a b => a.paragraph.index ≠ b.paragraph.index) := by
    unfold selectedCandidates
    by_cases hp : pages = []
    · rw [if_pos hp]; exact List.Pairwise.nil
    · rw [if_neg hp]; exact (selectCandidates_paras _ _ _ _ _).2
  refine ⟨?_, hidx⟩
  unfold generateLinkOpportunities
  by_cases hp : pages = []
  · rw [if_pos hp]; exact List.Pairwise.nil
  · rw [if_neg hp]
    exact List.pairwise_map.mpr (hurl.imp fun hne => hne)

/-- C2.  The accepted decisions of one `generateLinkOpportunities` call
are listed in increasing paragraph order, and every consecutive pair is at
least 250 apart in the cumulative word count of their host paragraphs (so
the same holds for consecutive pairs under the ordering by paragraph
index, which coincides with the list order). -/
theorem c2_min_spacing (pages : List SitePage) (h : List Char) (maxLinks : Option Nat) :
    (selectedCandidates pages h maxLinks).Chain'
        (fun a b => a.paragraph.index < b.paragraph.index) ∧
      (selectedCandidates pages h maxLinks).Chain'
        (fun a b => a.paragraph.cumulativeWords + 250 ≤ b.paragraph.cumulativeWords) := by
  obtain ⟨hgap, hidx⟩ := selected_chain_facts pages h maxLinks
  exact ⟨hidx, hgap.imp fun hr => by omega⟩

/-- C9.  (Implicit claim.)  The list returned by
`generateLinkOpportunities` is always in document order: paragraph indices
and cumulative word counts of the accepted candidates are strictly
increasing along the returned list, forced by the 250-word spacing check. -/
theorem c9_document_order (pages : List SitePage) (h : List Char) (maxLinks : Option Nat) :
    (selectedCandidates pages h maxLinks).Chain'
        (fun a b => a.paragraph.index < b.paragraph.index) ∧
      (selectedCandidates pages h maxLinks).Chain'
        (fun a b => a.paragraph.cumulativeWords < b.paragraph.cumulativeWords) := by
  obtain ⟨hgap, hidx⟩ := selected_chain_facts pages h maxLinks
  exact ⟨hidx, hgap.imp fun hr => by omega⟩

/-- C7.  No candidate — and hence no returned link — ever references a
paragraph of fewer than 12 words: every generated or selected candidate's
host paragraph has word count at least 12. -/
theorem c7_min_word_count (pages : List SitePage) (h : List Char) (maxLinks : Option Nat)
    (c : ScoredCandidate) :
    (c ∈ genCandidates pages h → 12 ≤ c.paragraph.wordCount) ∧
      (c ∈ selectedCandidates pages h maxLinks → 12 ≤ c.paragraph.wordCount) :=
  ⟨fun hc => (mem_genCandidates hc).2.2.1,
   fun hc => (mem_genCandidates (mem_selectedCandidates hc)).2.2.1⟩

/-- C8.  With an empty catalog — never set, set to `undefined`
(`updateSitePages none`) or set to an empty list — the engine returns `[]`
for every HTML input and every `maxLinks` value. -/
theorem c8_empty_catalog (h : List Char) (maxLinks : Option Nat) :
    generateLinkOpportunities (updateSitePages none) h maxLinks = [] ∧
      generateLinkOpportunities (updateSitePages (some [])) h maxLinks = [] ∧
      generateLinkOpportunities [] h maxLinks = [] :=
  ⟨rfl, rfl, rfl⟩

/-- C7 witness.  On the specification's worked example the engine
produces the expected candidate, and the theorem instantiates to its
paragraph's word count. -/
theorem c7_witness :
    cSourdough ∈ genCandidates [pgSourdough] htmlSourdough ∧
      12 ≤ cSourdough.paragraph.wordCount := by
  have hmem : cSourdough ∈ genCandidates [pgSourdough] htmlSourdough := by decide
  exact ⟨hmem, (c7_min_word_count [pgSourdough] htmlSourdough none cSourdough).1 hmem⟩

/-- C3 counterexample.  The fallback branch of the anchor generator
returns the two-word anchor `and the` (verbatim from the title `And The`):
a candidate anchor with fewer than 3 words, contradicting the claim that
every candidate anchor is a run of 3–7 words. -/
theorem c3_counterexample :
    findBestAnchor textStop pgStop = some ⟨"and the".data, ⟨34, 1⟩⟩ ∧
      (wordRuns "and the".data).length = 2 := by
  constructor
  · decide
  · decide

/-- C3 (amended).  Every candidate the anchor generator produces is
either a contiguous run of 3–7 whitespace-split words of the paragraph
joined by single spaces (window branch), or the case-preserving substring
of the paragraph at a case-insensitive occurrence of a 2–4-word run of the
page title (fallback branch) — so fallback anchors may have as few as two
words. -/
theorem c3_amended_anchor_shape (paraText : List Char) (page : SitePage) (r : AnchorResult)
    (h : findBestAnchor paraText page = some r) :
    (∃ len i, 3 ≤ len ∧ len ≤ 7 ∧ i + len ≤ (jsSplitWs paraText).length ∧
        r.anchor = joinSp (((jsSplitWs paraText).drop i).take len)) ∨
      FallbackAnchorProp paraText (titleWordsOf page) r := by
  rcases findBestAnchor_shape h with hw | hf
  · obtain ⟨len, i, h3, h7, hin, hanchor, _, _⟩ := hw
    exact Or.inl ⟨len, i, h3, h7, hin, hanchor⟩
  · exact Or.inr hf

/-- C3 (amended) witness.  The amended theorem applied to the worked
example, whose anchor is the 4-word window `guide to sourdough baking`. -/
theorem c3_amended_witness :
    (∃ len i, 3 ≤ len ∧ len ≤ 7 ∧ i + len ≤ (jsSplitWs textSourdough).length ∧
        rSourdough.anchor = joinSp (((jsSplitWs textSourdough).drop i).take len)) ∨
      FallbackAnchorProp textSourdough (titleWordsOf pgSourdough) rSourdough :=
  c3_amended_anchor_shape textSourdough pgSourdough rSourdough (by decide)

/-- C4 counterexample.  A full `generateLinkOpportunities` run returns
the anchor `and the`, which both begins and ends on stop-words — the
fallback branch never applies the stop-word guard. -/
theorem c4_counterexample :
    (generateLinkOpportunities [pgStop] htmlStop none).map (fun l => l.anchor) =
        ["and the".data] ∧
      wordRuns "and the".data = ["and".data, "the".data] ∧
      isStop (lcAlphaOnly "and".data) = true ∧
      isStop (lcAlphaOnly "the".data) = true := by
  refine ⟨by decide, by decide, by decide, by decide⟩

/-- C4 (amended).  An anchor produced by the window branch never
begins or ends on a stop-word (the guard at lines 147–150); an anchor
produced by the fallback branch is only constrained to be the
case-preserving copy of a 2–4-word title run and may begin or end on a
stop-word. -/
theorem c4_amended_stop_words (paraText : List Char) (page : SitePage) (r : AnchorResult)
    (h : findBestAnchor paraText page = some r) :
    WindowAnchorProp (jsSplitWs paraText) r ∨
      FallbackAnchorProp paraText (titleWordsOf page) r :=
  findBestAnchor_shape h

/-- C4 (amended) witness.  The amended theorem applied to the worked
example. -/
theorem c4_amended_witness :
    WindowAnchorProp (jsSplitWs textSourdough) rSourdough ∨
      FallbackAnchorProp textSourdough (titleWordsOf pgSourdough) rSourdough :=
  c4_amended_stop_words textSourdough pgSourdough rSourdough (by decide)

/-! ## The injector claims -/

theorem listExtract_append {l : List Char} {a b c : Nat} (h1 : a ≤ b) (h2 : b ≤ c) :
    listExtract l a b ++ listExtract l b c = listExtract l a c := by
  unfold listExtract
  have hc : c - a = (b - a) + (c - b) := by omega
  rw [hc, List.take_add]
  congr 2
  rw [List.drop_drop]
  congr 1
  omega

theorem tryMatchAt_spec {h anchor : List Char} {s : Nat} {M : InjMatch}
    (hM : tryMatchAt h anchor s = some M) :
    M.s = s ∧ M.aLen = anchor.length ∧ isPOpenAt h s = true ∧
      s + 2 ≤ M.oe ∧ M.oe ≤ M.k ∧
      wbAt h M.k = true ∧ matchCIAt h anchor M.k = true ∧
      wbAt h (M.k + anchor.length) = true ∧
      M.k + anchor.length ≤ M.m ∧ closePAt h M.m = true := by
  unfold tryMatchAt at hM
  split_ifs at hM with hp
  cases hj : scanFirst (fun t => h.get? t = some '>') (s + 2) (h.length + 1) with
  | none => rw [hj] at hM; cases hM
  | some j =>
    rw [hj] at hM
    dsimp only at hM
    cases hq : findCloseP h (j + 1) with
    | none => rw [hq] at hM; cases hM
    | some q =>
      rw [hq] at hM
      dsimp only at hM
      cases hk : scanFirst (anchorFitsAt h anchor) (j + 1) (q + 1 - (j + 1)) with
      | none => rw [hk] at hM; cases hM
      | some k =>
        rw [hk] at hM
        dsimp only at hM
        cases hm : findCloseP h (k + anchor.length) with
        | none => rw [hm] at hM; cases hM
        | some m =>
          rw [hm] at hM
          dsimp only at hM
          cases hM
          obtain ⟨hjp, hjge, _, _⟩ := scanFirst_some hj
          obtain ⟨hkfit, hkge, _, _⟩ := scanFirst_some hk
          obtain ⟨hmp, hmge, _, _⟩ := scanFirst_some hm
          simp only [anchorFitsAt, Bool.and_eq_true] at hkfit
          dsimp only
          exact ⟨rfl, rfl, hp, by omega, by omega, hkfit.1.1.1, hkfit.1.1.2,
            hkfit.1.2, hmge, hmp⟩

theorem findInjMatch_spec {h anchor : List Char} {M : InjMatch}
    (hM : findInjMatch h anchor = some M) :
    tryMatchAt h anchor M.s = some M ∧ ∀ s' < M.s, tryMatchAt h anchor s' = none := by
  unfold findInjMatch at hM
  cases hscan : scanFirst (fun s => (tryMatchAt h anchor s).isSome) 0 (h.length + 1) with
  | none => rw [hscan] at hM; cases hM
  | some s0 =>
    rw [hscan] at hM
    obtain ⟨_, _, _, hmin⟩ := scanFirst_some hscan
    have hMs : M.s = s0 := (tryMatchAt_spec hM).1
    refine ⟨by rw [hMs]; exact hM, fun s' hs' => ?_⟩
    have hfalse := hmin s' (Nat.zero_le _) (by omega)
    cases htry : tryMatchAt h anchor s' with
    | none => rfl
    | some _ => rw [htry] at hfalse; simp at hfalse

/-- C5 counterexample.  The decision's anchor occurs, whole-word
bounded, in a markup-free paragraph (the second one), yet the injector
inserts nothing at all — its leftmost regex match lands in the first,
already-linked paragraph and the decision is then skipped rather than
retried further right.  This contradicts the claim that the first
qualifying occurrence is wrapped. -/
theorem c5_counterexample :
    existsCleanParagraphOccurrence docLinkedFirst (effAnchor linkT) = true ∧
      ¬(effAnchor linkT).length < 4 ∧
      injectContextualLinks docLinkedFirst [linkT] = docLinkedFirst ∧
      containsSub docLinkedFirst ("<a href=\"/t\"").data = false := by
  refine ⟨by decide, by decide, by decide, by decide⟩

/-- C5 (amended).  The injector examines only the leftmost regex match
of the anchor: when that match exists and its paragraph region holds no
`<a` + whitespace markup, the first qualifying occurrence is wrapped in an
`<a>` tag pointing at the decision's URL — the output is the input with
`linkify` spliced around the matched text, which is the case-preserving
copy of the anchor (case-insensitively equal to it, word-bounded on both
sides).  When the leftmost match's region already holds link markup the
decision is skipped, even if a later markup-free paragraph contains the
anchor. -/
theorem c5_amended_leftmost_injection (h : List Char) (link : InternalLink) (M : InjMatch)
    (hA : effAnchor link ≠ []) (hU : effUrl link ≠ [])
    (hL : ¬(effAnchor link).length < 4)
    (hM : findInjMatch h (effAnchor link) = some M)
    (hclean : containsAWs (listExtract h M.s (M.m + 4)) = false) :
    stepLink h link =
        listExtract h 0 M.k ++
          linkify (effUrl link) (listExtract h M.k (M.k + M.aLen)) ++
          listExtract h (M.k + M.aLen) (M.m + 4) ++ h.drop (M.m + 4) ∧
      lcList (listExtract h M.k (M.k + M.aLen)) = lcList (effAnchor link) ∧
      wbAt h M.k = true ∧ wbAt h (M.k + M.aLen) = true ∧
      ∀ s' < M.s, tryMatchAt h (effAnchor link) s' = none := by
  obtain ⟨htry, hleft⟩ := findInjMatch_spec hM
  obtain ⟨hs, hlen, hpop, hoe, hok, hwb1, hci, hwb2, hkm, hcp⟩ := tryMatchAt_spec htry
  have hstep : stepLink h link = spliceAt h M (effUrl link) := by
    simp only [stepLink]
    rw [if_neg (by push_neg; exact ⟨hA, hU, by omega⟩), hM]
    dsimp only
    rw [if_neg (by simp [hclean])]
  have hsplice : spliceAt h M (effUrl link) =
      listExtract h 0 M.k ++
        linkify (effUrl link) (listExtract h M.k (M.k + M.aLen)) ++
        listExtract h (M.k + M.aLen) (M.m + 4) ++ h.drop (M.m + 4) := by
    unfold spliceAt
    have e1 : listExtract h M.s M.oe ++ listExtract h M.oe M.k = listExtract h M.s M.k :=
      listExtract_append (by omega) hok
    have e2 : listExtract h 0 M.s ++ listExtract h M.s M.k = listExtract h 0 M.k :=
      listExtract_append (Nat.zero_le _) (by omega)
    calc listExtract h 0 M.s ++
          (listExtract h M.s M.oe ++ listExtract h M.oe M.k ++
            linkify (effUrl link) (listExtract h M.k (M.k + M.aLen)) ++
            listExtract h (M.k + M.aLen) (M.m + 4)) ++ h.drop (M.m + 4)
        = (listExtract h 0 M.s ++ listExtract h M.s M.k) ++
            linkify (effUrl link) (listExtract h M.k (M.k + M.aLen)) ++
            listExtract h (M.k + M.aLen) (M.m + 4) ++ h.drop (M.m + 4) := by
          rw [e1]; simp [List.append_assoc]
      _ = listExtract h 0 M.k ++
            linkify (effUrl link) (listExtract h M.k (M.k + M.aLen)) ++
            listExtract h (M.k + M.aLen) (M.m + 4) ++ h.drop (M.m + 4) := by rw [e2]
  have hcieq : lcList (listExtract h M.k (M.k + M.aLen)) = lcList (effAnchor link) := by
    have := hci
    simp only [matchCIAt, Bool.and_eq_true, decide_eq_true_eq] at this
    rw [hlen]
    exact this.2
  refine ⟨hstep.trans hsplice, hcieq, ?_, ?_, hleft⟩
  · exact hwb1
  · rw [hlen]; exact hwb2

/-- C5 (amended) witness.  On a clean single-paragraph document, the
amended theorem yields the concrete spliced output. -/
theorem c5_amended_witness :
    stepLink docPlain linkT =
      listExtract docPlain 0 matchPlain.k ++
        linkify (effUrl linkT) (listExtract docPlain matchPlain.k
          (matchPlain.k + matchPlain.aLen)) ++
        listExtract docPlain (matchPlain.k + matchPlain.aLen) (matchPlain.m + 4) ++
        docPlain.drop (matchPlain.m + 4) :=
  (c5_amended_leftmost_injection docPlain linkT matchPlain (by decide) (by decide)
    (by decide) (by decide) (by decide)).1

/-- C10 counterexample.  The `/<a\s/i` markup test misses an
attributeless `<a>` tag, so the injector inserts a new link *inside* the
pre-existing `<a>…</a>` region — the claim's "never inserts a link into a
paragraph that already contains `<a>` markup" is false as stated. -/
theorem c10_counterexample :
    containsSub docBareAnchor "<a>my anchor text</a>".data = true ∧
      injectContextualLinks docBareAnchor [linkT] ≠ docBareAnchor ∧
      containsSub (injectContextualLinks docBareAnchor [linkT]) "<a><a href=".data = true := by
  refine ⟨by decide, by decide, by decide⟩

/-- C10 (amended).  The guard the injector actually enforces: whenever
the leftmost regex match's paragraph region contains `<a` followed by
whitespace — which is what every previously injected `<a href="…"` block
contains — the decision is dropped and the document is returned unchanged.
Hence a paragraph region gains at most one injected link per call and no
injected anchor lands inside a previously injected link's paragraph
region; only attributeless `<a>` tags escape the test. -/
theorem c10_amended_skip_linked (h : List Char) (link : InternalLink) (M : InjMatch)
    (hM : findInjMatch h (effAnchor link) = some M)
    (hmark : containsAWs (listExtract h M.s (M.m + 4)) = true) :
    stepLink h link = h := by
  simp only [stepLink]
  split_ifs with hguard
  · rfl
  · rw [hM]
    dsimp only
    rw [if_pos hmark]

/-- C10 (amended) witness.  On `docLinkedFirst` the leftmost match's
region holds `<a href="/e">`, and the step leaves the document unchanged. -/
theorem c10_amended_witness :
    findInjMatch docLinkedFirst (effAnchor linkT) = some matchLinkedFirst ∧
      containsAWs (listExtract docLinkedFirst matchLinkedFirst.s
        (matchLinkedFirst.m + 4)) = true ∧
      stepLink docLinkedFirst linkT = docLinkedFirst := by
  have h1 : findInjMatch docLinkedFirst (effAnchor linkT) = some matchLinkedFirst := by decide
  have h2 : containsAWs (listExtract docLinkedFirst matchLinkedFirst.s
      (matchLinkedFirst.m + 4)) = true := by decide
  exact ⟨h1, h2, c10_amended_skip_linked docLinkedFirst linkT matchLinkedFirst h1 h2⟩

/-- C6.  Round-trip exclusion: every splice the injector makes wraps
the anchor in `linkify` markup, which always contains `<a` + whitespace;
and a subsequent `generateLinkOpportunities` call on any document — in
particular on the injector's output — accepts no candidate whose paragraph
contains `<a` + whitespace.  So no returned link is hosted by a paragraph
that carries an injected (or any attributed) anchor tag. -/
theorem c6_roundtrip_exclusion (html : List Char) (decisions : List InternalLink)
    (pages : List SitePage) (maxLinks : Option Nat) :
    (∀ url t, containsAWs (linkify url t) = true) ∧
      ∀ p ∈ extractParagraphs (injectContextualLinks html decisions),
        containsAWs p.html = true →
        ∀ c ∈ selectedCandidates pages (injectContextualLinks html decisions) maxLinks,
          c.paragraph ≠ p := by
  constructor
  · intro url t; rfl
  · intro p hp hmark c hc heq
    have h1 : c.paragraph.hasLink = false := (mem_genCandidates (mem_selectedCandidates hc)).2.1
    have h2 : p.hasLink = containsAWs p.html := (mem_extractParagraphs hp).2
    rw [heq, h2, hmark] at h1
    cases h1

set_option maxRecDepth 100000 in
/-- C6 witness.  Injecting into a two-paragraph document: the first
paragraph ends up carrying the injected markup and is excluded from the
re-run, whose one accepted candidate sits in the other paragraph. -/
theorem c6_witness :
    paraRoundtrip0 ∈ extractParagraphs resultRoundtrip ∧
      containsAWs paraRoundtrip0.html = true ∧
      cRoundtrip ∈ selectedCandidates [pgSourdough] resultRoundtrip none ∧
      cRoundtrip.paragraph ≠ paraRoundtrip0 := by
  have h1 : paraRoundtrip0 ∈ extractParagraphs resultRoundtrip := by decide
  have h2 : containsAWs paraRoundtrip0.html = true := by decide
  have h3 : cRoundtrip ∈ selectedCandidates [pgSourdough] resultRoundtrip none := by decide
  exact ⟨h1, h2, h3,
    (c6_roundtrip_exclusion docRoundtrip [linkT] [pgSourdough] none).2 paraRoundtrip0 h1 h2
      cRoundtrip h3⟩

end SOTA
